import Mathlib

/-
Verification of the ComputationManager shared buffer
(src/code/src/computationmanager.h, src/code/src/computationmanager.cpp).

The manager is a Hoare monitor shared between clients and compute engines.
We give a shallow embedding of its state and of each public operation.

Embedding conventions:
* `double` payloads and result values never influence any verified property,
  so they are embedded as exact integers (`Int`); the shared
  `std::vector<double>` payload becomes a `List Int`.
* Ids are C++ `int`s that start at 0 and are only ever incremented; signed
  overflow is undefined behaviour in C++ and out of scope, so ids are `Nat`.
* Each operation runs between one `monitorIn` and (on every path but one)
  one `monitorOut`.  In the embedding an operation is an atomic step; the
  state records in `monitorHeld` whether the monitor was left acquired.
  Calling an operation while `monitorHeld` is true models `monitorIn`
  blocking forever on the leaked monitor: outcome `deadlock`, no change.
* A call that would block on a condition variable (`wait(...)`) performs no
  state mutation before waiting; it is embedded as outcome `blocked` with
  the state unchanged.  Its eventual commit, which under Hoare semantics
  happens when a signaller re-establishes the condition, is modelled by a
  later invocation of the same operation.
* `throw StopException()` is the outcome `stoppedExn`.
* `signal`/`wait` bookkeeping on condition variables has no effect on the
  data state and is dropped.
-/

namespace Mgr

/-- The three computation types `A`, `B`, `C` of the `ComputationType` enum. -/
inductive ComputationType where
  | A | B | C
deriving DecidableEq, Repr

/-- `Computation`: a type tag plus a shared read-only payload. -/
structure Computation where
  computationType : ComputationType
  data : List Int
deriving DecidableEq, Repr

/-- `Request`: the payload plus the id assigned at submission. -/
structure Request where
  data : List Int
  id : Nat
deriving DecidableEq, Repr

/-- `Result`: an id paired with the computed value. -/
structure Result where
  id : Nat
  result : Int
deriving DecidableEq, Repr

/-- `ResultWithId`: a ledger slot, an id with an optional filled result. -/
structure ResultWithId where
  id : Nat
  result : Option Result
deriving DecidableEq, Repr

/-- The state of a `ComputationManager`.

`buffer` maps each computation type to its pending list (C++
`std::map<ComputationType, std::list<Request>>`; an absent key behaves as the
empty list, exactly like `operator[]` default-insertion).  List head = C++
list front; `push_front` is `cons`, the oldest element is the last one.
`results` is the ledger, newest slot first (`emplace_front`).  `nextId` is
the static id counter, 0 for a fresh program. -/
structure ComputationManager where
  MAX_TOLERATED_QUEUE_SIZE : Nat
  buffer : ComputationType → List Request
  results : List ResultWithId
  stopped : Bool
  nextId : Nat
  monitorHeld : Bool

/-- A fresh manager: empty queues, empty ledger, not stopped, ids from 0. -/
def ComputationManager.init (maxQueueSize : Nat) : ComputationManager :=
  ⟨maxQueueSize, fun _ => [], [], false, 0, false⟩

/-- Outcome of one embedded operation call. -/
inductive Outcome (α : Type) where
  | ok : α → Outcome α
  | stoppedExn : Outcome α
  | blocked : Outcome α
  | deadlock : Outcome α
deriving DecidableEq, Repr

/-- Point update of the per-type queue map. -/
def setQueue (b : ComputationType → List Request) (t : ComputationType)
    (q : List Request) : ComputationType → List Request :=
  fun u => if u = t then q else b u

/-- `ComputationManager::requestComputation` (computationmanager.cpp:21-44).
If the per-type queue is full: throw when stopped, otherwise wait.
Otherwise assign `nextId`, push the request at the queue front, push an
empty ledger slot at the ledger front, return the id.  Note that the
`stopped` flag is only consulted on the full-queue path. -/
def ComputationManager.requestComputation (s : ComputationManager)
    (c : Computation) : Outcome Nat × ComputationManager :=
  if s.monitorHeld then (.deadlock, s) else
  if s.MAX_TOLERATED_QUEUE_SIZE ≤ (s.buffer c.computationType).length then
    if s.stopped then (.stoppedExn, s) else (.blocked, s)
  else
    let id := s.nextId
    (.ok id,
      { s with
        buffer := setQueue s.buffer c.computationType
          (⟨c.data, id⟩ :: s.buffer c.computationType),
        results := ⟨id, none⟩ :: s.results,
        nextId := id + 1 })

/-- `ComputationManager::abortComputation` (computationmanager.cpp:47-76).
The `std::map` is iterated in key order `A`, `B`, `C`.  If some queue holds
the id, that entry (only) is erased and the function returns.  Otherwise, if
a ledger slot holds the id, the slot is erased.  Otherwise the function
falls off its end, and on that path the source never calls `monitorOut`:
the monitor is left acquired. -/
def ComputationManager.abortComputation (s : ComputationManager)
    (id : Nat) : Outcome Unit × ComputationManager :=
  if s.monitorHeld then (.deadlock, s) else
  match [ComputationType.A, ComputationType.B, ComputationType.C].find?
      (fun t => (s.buffer t).any (fun r => r.id = id)) with
  | some t =>
      (.ok (), { s with
        buffer := setQueue s.buffer t
          ((s.buffer t).eraseP (fun r => r.id = id)) })
  | none =>
      if s.results.any (fun slot => slot.id = id) then
        (.ok (), { s with
          results := s.results.eraseP (fun slot => slot.id = id) })
      else
        (.ok (), { s with monitorHeld := true })

/-- `ComputationManager::getNextResult` (computationmanager.cpp:81-101).
The ledger's back (oldest) slot is inspected; while it is absent or
unfilled the caller waits (throwing when stopped).  When the back slot is
filled it is popped and its stored `Result` returned; `stopped` is not
consulted on that path. -/
def ComputationManager.getNextResult (s : ComputationManager) :
    Outcome Result × ComputationManager :=
  if s.monitorHeld then (.deadlock, s) else
  match s.results.getLast? with
  | some slot =>
      match slot.result with
      | some r => (.ok r, { s with results := s.results.dropLast })
      | none => if s.stopped then (.stoppedExn, s) else (.blocked, s)
  | none => if s.stopped then (.stoppedExn, s) else (.blocked, s)

/-- `ComputationManager::getWork` (computationmanager.cpp:105-126).
If the per-type queue is empty the caller waits (throwing when stopped);
otherwise the back (oldest) request is popped and returned, and `stopped`
is not consulted. -/
def ComputationManager.getWork (s : ComputationManager)
    (computationType : ComputationType) : Outcome Request × ComputationManager :=
  if s.monitorHeld then (.deadlock, s) else
  match (s.buffer computationType).getLast? with
  | some req =>
      (.ok req, { s with
        buffer := setQueue s.buffer computationType
          (s.buffer computationType).dropLast })
  | none => if s.stopped then (.stoppedExn, s) else (.blocked, s)

/-- `ComputationManager::continueWork` (computationmanager.cpp:130-143).
Returns `false` when stopped; otherwise `true` iff some ledger slot bears
the id.  Never waits and never throws. -/
def ComputationManager.continueWork (s : ComputationManager)
    (id : Nat) : Outcome Bool × ComputationManager :=
  if s.monitorHeld then (.deadlock, s) else
  if s.stopped then (.ok false, s)
  else (.ok (s.results.any (fun slot => slot.id = id)), s)

/-- Fill the first ledger slot whose id matches the result's id. -/
def fillSlot : List ResultWithId → Result → List ResultWithId
  | [], _ => []
  | slot :: rest, r =>
      if slot.id = r.id then { slot with result := some r } :: rest
      else slot :: fillSlot rest r

/-- `ComputationManager::provideResult` (computationmanager.cpp:146-157).
The first slot with the result's id is filled; an unknown id is a no-op. -/
def ComputationManager.provideResult (s : ComputationManager)
    (result : Result) : Outcome Unit × ComputationManager :=
  if s.monitorHeld then (.deadlock, s) else
  (.ok (), { s with results := fillSlot s.results result })

/-- `ComputationManager::stop` (computationmanager.cpp:161-174).
Sets `stopped` and signals every condition (signals carry no data state). -/
def ComputationManager.stop (s : ComputationManager) :
    Outcome Unit × ComputationManager :=
  if s.monitorHeld then (.deadlock, s) else
  (.ok (), { s with stopped := true })

/-- One operation of a client / engine / control trace. -/
inductive Op where
  | request : Computation → Op
  | abort : Nat → Op
  | getNext : Op
  | getWork : ComputationType → Op
  | contWork : Nat → Op
  | provide : Result → Op
  | stop : Op
deriving DecidableEq, Repr

/-- The state after one operation (its outcome is observed separately). -/
def stepM (s : ComputationManager) : Op → ComputationManager
  | .request c => (s.requestComputation c).2
  | .abort id => (s.abortComputation id).2
  | .getNext => s.getNextResult.2
  | .getWork t => (s.getWork t).2
  | .contWork id => (s.continueWork id).2
  | .provide r => (s.provideResult r).2
  | .stop => s.stop.2

/-- The state after running a whole trace of operations. -/
def run (s : ComputationManager) : List Op → ComputationManager
  | [] => s
  | op :: ops => run (stepM s op) ops

/-- The id emitted by an operation when it is a successful submission. -/
def reqIdOf (s : ComputationManager) : Op → Option Nat
  | .request c =>
      match (s.requestComputation c).1 with
      | .ok id => some id
      | _ => none
  | _ => none

/-- The id emitted by an operation when it is a successful result delivery. -/
def resIdOf (s : ComputationManager) : Op → Option Nat
  | .getNext =>
      match s.getNextResult.1 with
      | .ok r => some r.id
      | _ => none
  | _ => none

/-- The id emitted by an operation when it hands out work of type `t`. -/
def workIdOf (s : ComputationManager) (t : ComputationType) : Op → Option Nat
  | .getWork u =>
      if u = t then
        match (s.getWork u).1 with
        | .ok r => some r.id
        | _ => none
      else none
  | _ => none

/-- Collect the ids emitted along a trace by an observation function. -/
def collect (f : ComputationManager → Op → Option Nat)
    (s : ComputationManager) : List Op → List Nat
  | [] => []
  | op :: ops =>
      match f s op with
      | some id => id :: collect f (stepM s op) ops
      | none => collect f (stepM s op) ops

/-- Ids returned by the successful `requestComputation` calls of a trace. -/
def reqIds (s : ComputationManager) (ops : List Op) : List Nat :=
  collect reqIdOf s ops

/-- Ids of the results returned by the successful `getNextResult` calls. -/
def resIds (s : ComputationManager) (ops : List Op) : List Nat :=
  collect resIdOf s ops

/-- Ids of the requests returned by the successful `getWork t` calls. -/
def workIds (t : ComputationType) (s : ComputationManager)
    (ops : List Op) : List Nat :=
  collect (fun s op => workIdOf s t op) s ops

/-- A trace containing no `abortComputation` call. -/
def noAbort (ops : List Op) : Bool :=
  ops.all fun op =>
    match op with
    | .abort _ => false
    | _ => true

/-! ## Theorems -/

/-- C1 counterexample.  On a freshly stopped manager whose type-A queue is
empty (hence not full), `requestComputation` does not fail with Stopped: it
returns the fresh id 0 and creates a new `Request` and a new `ResultSlot`,
refuting the claim that every post-stop call fails and creates nothing. -/
theorem c1_counterexample :
    ((ComputationManager.init 10).stop.2.requestComputation
        ⟨ComputationType.A, []⟩).1 = Outcome.ok 0 ∧
    ((ComputationManager.init 10).stop.2.requestComputation
        ⟨ComputationType.A, []⟩).2.results = [⟨0, none⟩] ∧
    ((ComputationManager.init 10).stop.2.requestComputation
        ⟨ComputationType.A, []⟩).2.buffer ComputationType.A = [⟨[], 0⟩] ∧
    ((ComputationManager.init 10).stop.2.requestComputation
        ⟨ComputationType.A, []⟩).2.nextId = 1 := by
  refine ⟨rfl, rfl, ?_, rfl⟩
  decide

/-- C1 (amended).  After `stop()`, a `requestComputation` call that finds
its per-type queue at capacity fails with Stopped and creates nothing; but
a call that finds the queue below capacity still succeeds exactly as before
the stop: it issues the next id and creates a new Request and ResultSlot. -/
theorem c1_request_after_stop (s : ComputationManager) (c : Computation)
    (hm : s.monitorHeld = false) (hs : s.stopped = true) :
    (s.MAX_TOLERATED_QUEUE_SIZE ≤ (s.buffer c.computationType).length →
      s.requestComputation c = (Outcome.stoppedExn, s)) ∧
    ((s.buffer c.computationType).length < s.MAX_TOLERATED_QUEUE_SIZE →
      (s.requestComputation c).1 = Outcome.ok s.nextId ∧
      (s.requestComputation c).2.nextId = s.nextId + 1 ∧
      (s.requestComputation c).2.results = ⟨s.nextId, none⟩ :: s.results ∧
      (s.requestComputation c).2.buffer c.computationType =
        ⟨c.data, s.nextId⟩ :: s.buffer c.computationType) := by
  constructor
  · intro h
    simp [ComputationManager.requestComputation, hm, hs, h]
  · intro h
    have h2 : ¬ s.MAX_TOLERATED_QUEUE_SIZE ≤ (s.buffer c.computationType).length := by
      omega
    simp [ComputationManager.requestComputation, hm, h2, setQueue]

/-- Witness for C1 (amended): a stopped manager with queue capacity 1 and a
full type-A queue rejects a type-A submission with Stopped. -/
theorem c1_request_after_stop_witness :
    (((ComputationManager.init 1).requestComputation
        ⟨ComputationType.A, []⟩).2.stop.2.monitorHeld = false ∧
      ((ComputationManager.init 1).requestComputation
        ⟨ComputationType.A, []⟩).2.stop.2.stopped = true ∧
      1 ≤ (((ComputationManager.init 1).requestComputation
        ⟨ComputationType.A, []⟩).2.stop.2.buffer ComputationType.A).length) ∧
    ((ComputationManager.init 1).requestComputation
        ⟨ComputationType.A, []⟩).2.stop.2.requestComputation
        ⟨ComputationType.A, []⟩ =
      (Outcome.stoppedExn,
        ((ComputationManager.init 1).requestComputation
          ⟨ComputationType.A, []⟩).2.stop.2) :=
  ⟨⟨rfl, rfl, by decide⟩,
    (c1_request_after_stop _ _ rfl rfl).1 (by decide)⟩

/-- C2: evaluation of the code at the failing input.  Submit one type-A
computation (id 0) and abort it while still queued: the queue entry is
removed, but the empty ledger slot with id 0 remains; `continueWork 0`
still answers true and `getNextResult` blocks on the never-to-be-filled
slot, contradicting the claim that the ledger slot is removed too. -/
theorem c2_abort_leaves_ledger_slot :
    ((((ComputationManager.init 10).requestComputation
        ⟨ComputationType.A, []⟩).2.abortComputation 0).2.buffer
        ComputationType.A = [] ∧
      (((ComputationManager.init 10).requestComputation
        ⟨ComputationType.A, []⟩).2.abortComputation 0).2.results =
        [⟨0, none⟩]) ∧
    ((((ComputationManager.init 10).requestComputation
        ⟨ComputationType.A, []⟩).2.abortComputation 0).2.continueWork 0).1 =
      Outcome.ok true ∧
    (((ComputationManager.init 10).requestComputation
        ⟨ComputationType.A, []⟩).2.abortComputation 0).2.getNextResult.1 =
      Outcome.blocked := by
  refine ⟨⟨?_, rfl⟩, rfl, rfl⟩
  decide

/-- C3: evaluation of the code at the failing input.  Aborting an id that
is in no queue and not in the ledger changes no queue and no ledger state
and returns, but the source's not-found path never calls `monitorOut`, so
the monitor is left acquired and the same abort repeated (indeed any next
call) deadlocks — the call is not the harmless idempotent no-op claimed. -/
theorem c3_abort_unknown_id_leaks_monitor :
    ((ComputationManager.init 10).abortComputation 5).1 = Outcome.ok () ∧
    ((ComputationManager.init 10).abortComputation 5).2.results = [] ∧
    ((ComputationManager.init 10).abortComputation 5).2.buffer
      ComputationType.A = [] ∧
    ((ComputationManager.init 10).abortComputation 5).2.monitorHeld = true ∧
    (((ComputationManager.init 10).abortComputation 5).2.abortComputation
      5).1 = Outcome.deadlock := by
  refine ⟨rfl, rfl, ?_, rfl, rfl⟩
  decide

/-- C8: `continueWork` never waits and never throws — it always returns a
boolean and leaves the state unchanged; it returns false whenever the
manager is stopped, and otherwise returns true iff a ledger slot with the
given id currently exists. -/
theorem c8_continueWork (s : ComputationManager) (id : Nat)
    (hm : s.monitorHeld = false) :
    (∃ b, (s.continueWork id).1 = Outcome.ok b) ∧
    (s.continueWork id).2 = s ∧
    (s.stopped = true → (s.continueWork id).1 = Outcome.ok false) ∧
    (s.stopped = false →
      ((s.continueWork id).1 = Outcome.ok true ↔
        ∃ slot ∈ s.results, slot.id = id)) := by
  cases hstp : s.stopped <;>
    simp [ComputationManager.continueWork, hm, hstp, List.any_eq_true]

/-- Witness for C8: on a stopped manager holding a live slot for id 0,
`continueWork 0` still returns false. -/
theorem c8_continueWork_witness :
    ((ComputationManager.init 10).requestComputation
      ⟨ComputationType.A, []⟩).2.stop.2.monitorHeld = false ∧
    (((ComputationManager.init 10).requestComputation
      ⟨ComputationType.A, []⟩).2.stop.2.continueWork 0).1 =
      Outcome.ok false :=
  ⟨rfl, (c8_continueWork _ 0 rfl).2.2.1 rfl⟩

/-- C9: after `stop()`, a `getWork` call that finds a non-empty per-type
queue does not fail with Stopped: it pops and returns the back (oldest)
request, exactly as the same call would with the stop flag cleared. -/
theorem c9_getWork_after_stop (s : ComputationManager) (t : ComputationType)
    (hm : s.monitorHeld = false) (hs : s.stopped = true)
    (hne : s.buffer t ≠ []) :
    (s.getWork t).1 = Outcome.ok ((s.buffer t).getLast hne) ∧
    (s.getWork t).2.buffer t = (s.buffer t).dropLast ∧
    (s.getWork t).1 = ({ s with stopped := false }.getWork t).1 ∧
    (s.getWork t).2.buffer t =
      ({ s with stopped := false }.getWork t).2.buffer t := by
  have hl : (s.buffer t).getLast? = some ((s.buffer t).getLast hne) :=
    List.getLast?_eq_getLast _ hne
  simp [ComputationManager.getWork, hm, hl, setQueue]

/-- Witness for C9: a stopped manager with request id 0 pending in the
type-A queue hands it out through `getWork A`. -/
theorem c9_getWork_after_stop_witness :
    (((ComputationManager.init 10).requestComputation
        ⟨ComputationType.A, []⟩).2.stop.2.monitorHeld = false ∧
      ((ComputationManager.init 10).requestComputation
        ⟨ComputationType.A, []⟩).2.stop.2.stopped = true) ∧
    (((ComputationManager.init 10).requestComputation
        ⟨ComputationType.A, []⟩).2.stop.2.getWork ComputationType.A).1 =
      Outcome.ok ⟨[], 0⟩ :=
  ⟨⟨rfl, rfl⟩,
    (c9_getWork_after_stop _ ComputationType.A rfl rfl (by decide)).1⟩

/-- C10: after `stop()`, a `getNextResult` call that finds the oldest
ledger slot already filled does not fail with Stopped: it removes the slot
and returns its stored result, exactly as the same call would with the stop
flag cleared. -/
theorem c10_getNextResult_after_stop (s : ComputationManager)
    (slot : ResultWithId) (r : Result)
    (hm : s.monitorHeld = false) (hs : s.stopped = true)
    (hlast : s.results.getLast? = some slot)
    (hfill : slot.result = some r) :
    s.getNextResult.1 = Outcome.ok r ∧
    s.getNextResult.2.results = s.results.dropLast ∧
    s.getNextResult.1 = ({ s with stopped := false }).getNextResult.1 := by
  simp [ComputationManager.getNextResult, hm, hlast, hfill]

/-- Witness for C10: a stopped manager whose only slot (id 0) was filled
with value 42 still delivers that result. -/
theorem c10_getNextResult_after_stop_witness :
    ((((ComputationManager.init 10).requestComputation
        ⟨ComputationType.A, []⟩).2.provideResult ⟨0, 42⟩).2.stop.2.stopped =
        true ∧
      (((ComputationManager.init 10).requestComputation
        ⟨ComputationType.A, []⟩).2.provideResult
        ⟨0, 42⟩).2.stop.2.results.getLast? = some ⟨0, some ⟨0, 42⟩⟩) ∧
    (((ComputationManager.init 10).requestComputation
        ⟨ComputationType.A, []⟩).2.provideResult
        ⟨0, 42⟩).2.stop.2.getNextResult.1 = Outcome.ok ⟨0, 42⟩ :=
  ⟨⟨rfl, by decide⟩,
    (c10_getNextResult_after_stop _ ⟨0, some ⟨0, 42⟩⟩ ⟨0, 42⟩ rfl rfl
      (by decide) rfl).1⟩

/-- Only a successful submission changes `nextId`, and it emits exactly the
id it assigned. -/
theorem reqIdOf_cases (s : ComputationManager) (op : Op) :
    (reqIdOf s op = none ∧ (stepM s op).nextId = s.nextId) ∨
    (reqIdOf s op = some s.nextId ∧ (stepM s op).nextId = s.nextId + 1) := by
  cases op with
  | request c =>
      by_cases hm : s.monitorHeld
      · left
        simp [reqIdOf, stepM, ComputationManager.requestComputation, hm]
      · by_cases hfull :
          s.MAX_TOLERATED_QUEUE_SIZE ≤ (s.buffer c.computationType).length
        · left
          cases hstp : s.stopped <;>
            simp [reqIdOf, stepM, ComputationManager.requestComputation, hm,
              hfull, hstp]
        · right
          simp [reqIdOf, stepM, ComputationManager.requestComputation, hm,
            hfull]
  | abort id =>
      left
      refine ⟨rfl, ?_⟩
      simp only [stepM, ComputationManager.abortComputation]
      repeat' split
      all_goals rfl
  | getNext =>
      left
      refine ⟨rfl, ?_⟩
      simp only [stepM, ComputationManager.getNextResult]
      repeat' split
      all_goals rfl
  | getWork t =>
      left
      refine ⟨rfl, ?_⟩
      simp only [stepM, ComputationManager.getWork]
      repeat' split
      all_goals rfl
  | contWork id =>
      left
      refine ⟨rfl, ?_⟩
      simp only [stepM, ComputationManager.continueWork]
      repeat' split
      all_goals rfl
  | provide r =>
      left
      refine ⟨rfl, ?_⟩
      simp only [stepM, ComputationManager.provideResult]
      repeat' split
      all_goals rfl
  | stop =>
      left
      refine ⟨rfl, ?_⟩
      simp only [stepM, ComputationManager.stop]
      split
      all_goals rfl

/-- Along any trace the successful submissions receive exactly the
consecutive ids from the starting `nextId` up to the final one. -/
theorem reqIds_run (ops : List Op) : ∀ s : ComputationManager,
    reqIds s ops = List.range' s.nextId ((run s ops).nextId - s.nextId) ∧
    s.nextId ≤ (run s ops).nextId := by
  induction ops with
  | nil => intro s; simp [reqIds, collect, run]
  | cons op ops ih =>
      intro s
      have hrun : run s (op :: ops) = run (stepM s op) ops := rfl
      have ha := ih (stepM s op)
      obtain ⟨h1, h2⟩ | ⟨h1, h2⟩ := reqIdOf_cases s op
      · constructor
        · calc reqIds s (op :: ops) = reqIds (stepM s op) ops := by
                simp only [reqIds, collect, h1]
            _ = List.range' (stepM s op).nextId
                ((run (stepM s op) ops).nextId - (stepM s op).nextId) := ha.1
            _ = List.range' s.nextId
                ((run s (op :: ops)).nextId - s.nextId) := by rw [h2, hrun]
        · have hb := ha.2
          rw [hrun]
          omega
      · have hb := ha.2
        constructor
        · have hN : (run (stepM s op) ops).nextId - s.nextId =
              ((run (stepM s op) ops).nextId - (stepM s op).nextId) + 1 := by
            omega
          calc reqIds s (op :: ops)
              = s.nextId :: reqIds (stepM s op) ops := by
                simp only [reqIds, collect, h1]
            _ = s.nextId :: List.range' (stepM s op).nextId
                ((run (stepM s op) ops).nextId - (stepM s op).nextId) := by
                rw [ha.1]
            _ = List.range' s.nextId
                ((run s (op :: ops)).nextId - s.nextId) := by
                rw [hrun, hN, List.range'_succ, h2]
        · rw [hrun]
          omega

/-- C7: over any trace on a fresh manager, the ids handed out by the
successful `requestComputation` calls are exactly `0, 1, 2, …` in order — a
gap-free prefix of the naturals starting at 0, strictly increasing. -/
theorem c7_request_ids (m : Nat) (ops : List Op) :
    reqIds (ComputationManager.init m) ops =
      List.range ((run (ComputationManager.init m) ops).nextId) ∧
    List.Chain' (· < ·) (reqIds (ComputationManager.init m) ops) := by
  obtain ⟨h1, _⟩ := reqIds_run ops (ComputationManager.init m)
  have hz : (ComputationManager.init m).nextId = 0 := rfl
  rw [hz] at h1
  constructor
  · rw [h1, List.range_eq_range']
    simp
  · rw [h1]
    exact (List.pairwise_lt_range' _ _).chain'

/-- Every per-type pending queue respects the capacity bound. -/
def QueueBound (s : ComputationManager) : Prop :=
  ∀ t, (s.buffer t).length ≤ s.MAX_TOLERATED_QUEUE_SIZE

/-- No operation changes the configured capacity. -/
theorem MAX_stepM (s : ComputationManager) (op : Op) :
    (stepM s op).MAX_TOLERATED_QUEUE_SIZE = s.MAX_TOLERATED_QUEUE_SIZE := by
  cases op <;>
    (simp only [stepM, ComputationManager.requestComputation,
      ComputationManager.abortComputation, ComputationManager.getNextResult,
      ComputationManager.getWork, ComputationManager.continueWork,
      ComputationManager.provideResult, ComputationManager.stop]
     repeat' split
     all_goals rfl)

/-- No operation changes the configured capacity, over a whole trace. -/
theorem MAX_run (ops : List Op) : ∀ s : ComputationManager,
    (run s ops).MAX_TOLERATED_QUEUE_SIZE = s.MAX_TOLERATED_QUEUE_SIZE := by
  induction ops with
  | nil => intro s; rfl
  | cons op ops ih =>
      intro s
      calc (run s (op :: ops)).MAX_TOLERATED_QUEUE_SIZE
          = (run (stepM s op) ops).MAX_TOLERATED_QUEUE_SIZE := rfl
        _ = _ := by rw [ih, MAX_stepM]

/-- Each single operation preserves the queue bound: a submission only
pushes when the queue is strictly below capacity, and every other
operation only shrinks or keeps the queues. -/
theorem queueBound_stepM (s : ComputationManager) (op : Op)
    (h : QueueBound s) : QueueBound (stepM s op) := by
  intro t
  rw [MAX_stepM]
  cases op with
  | request c =>
      simp only [stepM, ComputationManager.requestComputation]
      split
      · exact h t
      split
      · split <;> exact h t
      · simp only [setQueue]
        split
        · simp only [List.length_cons]
          have := h c.computationType
          omega
        · exact h t
  | abort id =>
      simp only [stepM, ComputationManager.abortComputation]
      split
      · exact h t
      split
      · simp only [setQueue]
        split
        · rename_i ht
          subst ht
          calc ((s.buffer t).eraseP (fun r => r.id = id)).length
              ≤ (s.buffer t).length := (List.eraseP_sublist _).length_le
            _ ≤ _ := h t
        · exact h t
      · split <;> exact h t
  | getNext =>
      simp only [stepM, ComputationManager.getNextResult]
      repeat' split
      all_goals exact h t
  | getWork u =>
      simp only [stepM, ComputationManager.getWork]
      split
      · exact h t
      split
      · simp only [setQueue]
        split
        · rename_i ht
          subst ht
          have := h t
          simp only [List.length_dropLast]
          omega
        · exact h t
      · split <;> exact h t
  | contWork id =>
      simp only [stepM, ComputationManager.continueWork]
      repeat' split
      all_goals exact h t
  | provide r =>
      simp only [stepM, ComputationManager.provideResult]
      split <;> exact h t
  | stop =>
      simp only [stepM, ComputationManager.stop]
      split <;> exact h t

/-- The queue bound holds in every state reachable by a trace. -/
theorem queueBound_run (ops : List Op) : ∀ s : ComputationManager,
    QueueBound s → QueueBound (run s ops) := by
  induction ops with
  | nil => intro s h; exact h
  | cons op ops ih => intro s h; exact ih _ (queueBound_stepM s op h)

/-- C6: on a manager constructed with positive capacity `m`, after any
sequence of operations no per-type pending queue ever holds more than `m`
requests. -/
theorem c6_queue_bound (m : Nat) (ops : List Op) (t : ComputationType)
    (hm : 0 < m) :
    ((run (ComputationManager.init m) ops).buffer t).length ≤ m := by
  have h0 : QueueBound (ComputationManager.init m) := by
    intro t
    simp [ComputationManager.init]
  have h := queueBound_run ops _ h0 t
  rwa [MAX_run] at h

/-- Witness for C6: with capacity 1, two back-to-back type-A submissions
(the second one blocks) leave at most one request queued. -/
theorem c6_queue_bound_witness :
    0 < 1 ∧
    ((run (ComputationManager.init 1)
        [Op.request ⟨ComputationType.A, []⟩,
         Op.request ⟨ComputationType.A, []⟩]).buffer ComputationType.A).length
      ≤ 1 :=
  ⟨by decide, c6_queue_bound 1 _ ComputationType.A (by decide)⟩

/-- Per-type queues hold strictly decreasing ids from front (newest) to
back (oldest), all below `nextId`. -/
def QueueInv (s : ComputationManager) : Prop :=
  ∀ t, List.Pairwise (fun a b => b.id < a.id) (s.buffer t) ∧
    ∀ r ∈ s.buffer t, r.id < s.nextId

/-- Each step either shrinks a per-type queue in place (keeping relative
order) without lowering `nextId`, or pushes the freshly assigned id at the
queue front. -/
theorem stepM_queue_cases (s : ComputationManager) (op : Op)
    (t : ComputationType) :
    (((stepM s op).buffer t).Sublist (s.buffer t) ∧
      s.nextId ≤ (stepM s op).nextId) ∨
    (∃ d, (stepM s op).buffer t = ⟨d, s.nextId⟩ :: s.buffer t ∧
      (stepM s op).nextId = s.nextId + 1) := by
  cases op with
  | request c =>
      simp only [stepM, ComputationManager.requestComputation]
      split
      · exact Or.inl ⟨List.Sublist.refl _, Nat.le_refl _⟩
      split
      · split <;> exact Or.inl ⟨List.Sublist.refl _, Nat.le_refl _⟩
      · by_cases ht : t = c.computationType
        · subst ht
          right
          exact ⟨c.data, by simp [setQueue], rfl⟩
        · left
          refine ⟨?_, Nat.le_succ _⟩
          show (setQueue s.buffer c.computationType
            (⟨c.data, s.nextId⟩ :: s.buffer c.computationType) t).Sublist
            (s.buffer t)
          rw [setQueue, if_neg ht]
  | abort id =>
      simp only [stepM, ComputationManager.abortComputation]
      split
      · exact Or.inl ⟨List.Sublist.refl _, Nat.le_refl _⟩
      split
      · left
        refine ⟨?_, Nat.le_refl _⟩
        rename_i t' _
        show (setQueue s.buffer t'
          ((s.buffer t').eraseP (fun r => r.id = id)) t).Sublist (s.buffer t)
        rw [setQueue]
        split
        · rename_i ht
          subst ht
          exact List.eraseP_sublist _
        · exact List.Sublist.refl _
      · split <;> exact Or.inl ⟨List.Sublist.refl _, Nat.le_refl _⟩
  | getNext =>
      simp only [stepM, ComputationManager.getNextResult]
      repeat' split
      all_goals exact Or.inl ⟨List.Sublist.refl _, Nat.le_refl _⟩
  | getWork u =>
      simp only [stepM, ComputationManager.getWork]
      split
      · exact Or.inl ⟨List.Sublist.refl _, Nat.le_refl _⟩
      split
      · left
        refine ⟨?_, Nat.le_refl _⟩
        show (setQueue s.buffer u (s.buffer u).dropLast t).Sublist (s.buffer t)
        rw [setQueue]
        split
        · rename_i ht
          subst ht
          exact List.dropLast_sublist _
        · exact List.Sublist.refl _
      · split <;> exact Or.inl ⟨List.Sublist.refl _, Nat.le_refl _⟩
  | contWork id =>
      simp only [stepM, ComputationManager.continueWork]
      repeat' split
      all_goals exact Or.inl ⟨List.Sublist.refl _, Nat.le_refl _⟩
  | provide r =>
      simp only [stepM, ComputationManager.provideResult]
      split <;> exact Or.inl ⟨List.Sublist.refl _, Nat.le_refl _⟩
  | stop =>
      simp only [stepM, ComputationManager.stop]
      split <;> exact Or.inl ⟨List.Sublist.refl _, Nat.le_refl _⟩

/-- Each step preserves the queue-order invariant. -/
theorem qinv_stepM (s : ComputationManager) (op : Op) (h : QueueInv s) :
    QueueInv (stepM s op) := by
  intro t
  rcases stepM_queue_cases s op t with ⟨hsub, hn⟩ | ⟨d, hb, hn⟩
  · exact ⟨List.Pairwise.sublist hsub (h t).1,
      fun r hr => Nat.lt_of_lt_of_le ((h t).2 r (hsub.mem hr)) hn⟩
  · constructor
    · rw [hb]
      exact List.pairwise_cons.2 ⟨fun b hbm => (h t).2 b hbm, (h t).1⟩
    · intro r hr
      rw [hb] at hr
      rw [hn]
      rcases List.mem_cons.1 hr with h' | h'
      · rw [h']
        exact Nat.lt_succ_self _
      · exact Nat.lt_succ_of_lt ((h t).2 r h')

/-- The queue-order invariant holds in every reachable state. -/
theorem qinv_run (ops : List Op) : ∀ s : ComputationManager,
    QueueInv s → QueueInv (run s ops) := by
  induction ops with
  | nil => intro s h; exact h
  | cons op ops ih => intro s h; exact ih _ (qinv_stepM s op h)

/-- In a front-to-back strictly decreasing queue, the back element has the
minimal id. -/
theorem getLast_id_min (q : List Request)
    (hp : List.Pairwise (fun a b => b.id < a.id) q) (hq : q ≠ []) :
    ∀ r ∈ q, (q.getLast hq).id ≤ r.id := by
  intro r hr
  have hd : q.dropLast ++ [q.getLast hq] = q := List.dropLast_append_getLast hq
  rw [← hd] at hp hr
  rw [List.pairwise_append] at hp
  rcases List.mem_append.1 hr with h | h
  · exact Nat.le_of_lt (hp.2.2 r h _ (List.mem_singleton_self _))
  · have : r = q.getLast hq := List.mem_singleton.1 h
    rw [this]

/-- Lower bound on the id any future `getWork t` can return: the id of the
current back of `queue[t]`, or `nextId` when the queue is empty. -/
def lbW (s : ComputationManager) (t : ComputationType) : Nat :=
  match (s.buffer t).getLast? with
  | some r => r.id
  | none => s.nextId

/-- Shrinking a queue in place (and not lowering `nextId`) cannot lower
the `getWork` lower bound. -/
theorem lbW_le_of (s s' : ComputationManager) (t : ComputationType)
    (hinv : QueueInv s) (hsub : (s'.buffer t).Sublist (s.buffer t))
    (hn : s.nextId ≤ s'.nextId) : lbW s t ≤ lbW s' t := by
  unfold lbW
  cases hb' : (s'.buffer t).getLast? with
  | none =>
      cases hb : (s.buffer t).getLast? with
      | none => exact hn
      | some r =>
          have hqne : s.buffer t ≠ [] := by
            intro h
            rw [h] at hb
            simp at hb
          have hrm : r ∈ s.buffer t := by
            simp only [List.getLast?_eq_getLast _ hqne, Option.some.injEq] at hb
            rw [← hb]
            exact List.getLast_mem hqne
          exact Nat.le_trans (Nat.le_of_lt ((hinv t).2 r hrm)) hn
  | some r' =>
      have hne' : s'.buffer t ≠ [] := by
        intro h
        rw [h] at hb'
        simp at hb'
      have hr'mem : r' ∈ s.buffer t := by
        have hm' : r' ∈ s'.buffer t := by
          simp only [List.getLast?_eq_getLast _ hne', Option.some.injEq] at hb'
          rw [← hb']
          exact List.getLast_mem hne'
        exact hsub.mem hm'
      have hqne : s.buffer t ≠ [] := by
        intro h
        rw [h] at hr'mem
        simp at hr'mem
      rw [List.getLast?_eq_getLast _ hqne]
      exact getLast_id_min _ (hinv t).1 hqne r' hr'mem

/-- Pushing the freshly assigned id at the queue front leaves the `getWork`
lower bound unchanged. -/
theorem lbW_cons (s s' : ComputationManager) (t : ComputationType)
    (d : List Int) (hb : s'.buffer t = ⟨d, s.nextId⟩ :: s.buffer t)
    (hn : s'.nextId = s.nextId + 1) : lbW s t ≤ lbW s' t := by
  unfold lbW
  rw [hb]
  cases hq2 : s.buffer t with
  | nil => simp
  | cons b q' =>
      rw [List.getLast?_cons_cons]
      exact Nat.le_refl _

/-- No step lowers the `getWork` lower bound. -/
theorem lbW_le_stepM (s : ComputationManager) (op : Op) (t : ComputationType)
    (hinv : QueueInv s) : lbW s t ≤ lbW (stepM s op) t := by
  rcases stepM_queue_cases s op t with ⟨hsub, hn⟩ | ⟨d, hb, hn⟩
  · exact lbW_le_of s (stepM s op) t hinv hsub hn
  · exact lbW_cons s (stepM s op) t d hb hn

/-- Popping the back of `queue[t]` strictly raises the `getWork` lower
bound: everything left (or submitted later) has a strictly larger id. -/
theorem lbW_pop (s : ComputationManager) (t : ComputationType)
    (hinv : QueueInv s) (hm : s.monitorHeld = false) (r : Request)
    (hl : (s.buffer t).getLast? = some r) :
    r.id < lbW ((s.getWork t).2) t := by
  have hq : s.buffer t ≠ [] := by
    intro h
    rw [h] at hl
    simp at hl
  have hbuf : (s.getWork t).2.buffer t = (s.buffer t).dropLast := by
    simp [ComputationManager.getWork, hm, hl, setQueue]
  have hnid : (s.getWork t).2.nextId = s.nextId := by
    simp [ComputationManager.getWork, hm, hl]
  have hglr : (s.buffer t).getLast hq = r := by
    have h2 := List.getLast?_eq_getLast (s.buffer t) hq
    rw [h2] at hl
    exact Option.some.inj hl
  have hdecomp : (s.buffer t).dropLast ++ [r] = s.buffer t := by
    rw [← hglr]
    exact List.dropLast_append_getLast hq
  unfold lbW
  rw [hbuf, hnid]
  cases hdl : (s.buffer t).dropLast.getLast? with
  | none =>
      have hrmem : r ∈ s.buffer t := by
        rw [← hdecomp]
        exact List.mem_append.2 (Or.inr (List.mem_singleton_self _))
      exact (hinv t).2 r hrmem
  | some r' =>
      have hne : (s.buffer t).dropLast ≠ [] := by
        intro h
        rw [h] at hdl
        simp at hdl
      have hr'mem : r' ∈ (s.buffer t).dropLast := by
        have h2 := List.getLast?_eq_getLast _ hne
        rw [h2] at hdl
        rw [← Option.some.inj hdl]
        exact List.getLast_mem hne
      have hp := (hinv t).1
      rw [← hdecomp] at hp
      rw [List.pairwise_append] at hp
      exact hp.2.2 r' hr'mem r (List.mem_singleton_self _)

/-- An operation that emits a work id is a `getWork t` that found a
non-empty queue and returned its back element. -/
theorem workIdOf_eq_some (s : ComputationManager) (t : ComputationType)
    (op : Op) (y : Nat) (h : workIdOf s t op = some y) :
    op = Op.getWork t ∧ s.monitorHeld = false ∧
    ∃ r, (s.buffer t).getLast? = some r ∧ y = r.id := by
  cases op with
  | getWork u =>
      simp only [workIdOf] at h
      by_cases hut : u = t
      · subst hut
        rw [if_pos rfl] at h
        cases hmb : s.monitorHeld with
        | true => simp [ComputationManager.getWork, hmb] at h
        | false =>
            cases hl : (s.buffer u).getLast? with
            | some r =>
                simp only [ComputationManager.getWork, hmb, hl,
                  Bool.false_eq_true, if_false] at h
                exact ⟨rfl, rfl, r, rfl, (Option.some.inj h).symm⟩
            | none =>
                cases hstp : s.stopped <;>
                  simp [ComputationManager.getWork, hmb, hl, hstp] at h
      · rw [if_neg hut] at h
        exact absurd h (by simp)
  | request c => simp [workIdOf] at h
  | abort id => simp [workIdOf] at h
  | getNext => simp [workIdOf] at h
  | contWork id => simp [workIdOf] at h
  | provide r => simp [workIdOf] at h
  | stop => simp [workIdOf] at h

/-- Along any trace from a state satisfying the queue-order invariant, the
ids handed out by `getWork t` are strictly increasing and bounded below by
the current lower bound. -/
theorem workIds_spec (t : ComputationType) (ops : List Op) :
    ∀ s : ComputationManager, QueueInv s →
    List.Chain' (· < ·) (workIds t s ops) ∧
    ∀ y ∈ workIds t s ops, lbW s t ≤ y := by
  induction ops with
  | nil => intro s _; simp [workIds, collect]
  | cons op ops ih =>
      intro s hinv
      have hinv' := qinv_stepM s op hinv
      have ih' := ih (stepM s op) hinv'
      cases hemit : workIdOf s t op with
      | none =>
          have hfold : workIds t s (op :: ops) =
              workIds t (stepM s op) ops := by
            simp only [workIds, collect, hemit]
          rw [hfold]
          exact ⟨ih'.1, fun y hy =>
            Nat.le_trans (lbW_le_stepM s op t hinv) (ih'.2 y hy)⟩
      | some y =>
          obtain ⟨hop, hm, r, hl, hy⟩ := workIdOf_eq_some s t op y hemit
          subst hop
          subst hy
          have hfold : workIds t s (Op.getWork t :: ops) =
              r.id :: workIds t (stepM s (Op.getWork t)) ops := by
            simp only [workIds, collect, hemit]
          rw [hfold]
          have hpop : r.id < lbW (stepM s (Op.getWork t)) t :=
            lbW_pop s t hinv hm r hl
          have hlb : lbW s t = r.id := by
            unfold lbW
            rw [hl]
          constructor
          · rw [List.chain'_cons']
            refine ⟨?_, ih'.1⟩
            intro z hz
            exact Nat.lt_of_lt_of_le hpop (ih'.2 z (List.mem_of_mem_head? hz))
          · intro z hz
            rcases List.mem_cons.1 hz with h' | h'
            · rw [h']
              exact Nat.le_of_eq hlb
            · calc lbW s t = r.id := hlb
                _ ≤ lbW (stepM s (Op.getWork t)) t := Nat.le_of_lt hpop
                _ ≤ z := ih'.2 z h'

/-- C5: in any reachable state with a non-empty queue for type `t`,
`getWork t` removes and returns the back (oldest, minimal-id) pending
request of that type; and across any whole trace the ids handed out by
`getWork t` are strictly increasing — FIFO in submission order. -/
theorem c5_getWork_fifo (m : Nat) (ops : List Op) (t : ComputationType)
    (hne : (run (ComputationManager.init m) ops).buffer t ≠ [])
    (hm : (run (ComputationManager.init m) ops).monitorHeld = false) :
    (∃ r, ((run (ComputationManager.init m) ops).getWork t).1 =
        Outcome.ok r ∧
      r ∈ (run (ComputationManager.init m) ops).buffer t ∧
      (∀ r' ∈ (run (ComputationManager.init m) ops).buffer t,
        r.id ≤ r'.id) ∧
      ((run (ComputationManager.init m) ops).getWork t).2.buffer t =
        ((run (ComputationManager.init m) ops).buffer t).dropLast ∧
      ((run (ComputationManager.init m) ops).buffer t).dropLast ++ [r] =
        (run (ComputationManager.init m) ops).buffer t) ∧
    List.Chain' (· < ·) (workIds t (ComputationManager.init m) ops) := by
  have hq0 : QueueInv (ComputationManager.init m) := by
    intro u
    exact ⟨List.Pairwise.nil, fun r hr => by simp [ComputationManager.init] at hr⟩
  have hinv := qinv_run ops _ hq0
  constructor
  · have hl := List.getLast?_eq_getLast
      ((run (ComputationManager.init m) ops).buffer t) hne
    refine ⟨((run (ComputationManager.init m) ops).buffer t).getLast hne,
      ?_, List.getLast_mem hne, getLast_id_min _ (hinv t).1 hne, ?_, ?_⟩
    · simp [ComputationManager.getWork, hm, hl]
    · simp [ComputationManager.getWork, hm, hl, setQueue]
    · exact List.dropLast_append_getLast hne
  · exact (workIds_spec t ops _ hq0).1

/-- Witness for C5: submit two type-A computations and dispatch one; the
remaining queue is non-empty and all conclusions hold. -/
theorem c5_getWork_fifo_witness :
    ((run (ComputationManager.init 2)
        [Op.request ⟨ComputationType.A, []⟩,
         Op.request ⟨ComputationType.A, []⟩,
         Op.getWork ComputationType.A]).buffer ComputationType.A ≠ [] ∧
      (run (ComputationManager.init 2)
        [Op.request ⟨ComputationType.A, []⟩,
         Op.request ⟨ComputationType.A, []⟩,
         Op.getWork ComputationType.A]).monitorHeld = false) ∧
    List.Chain' (· < ·) (workIds ComputationType.A
      (ComputationManager.init 2)
      [Op.request ⟨ComputationType.A, []⟩,
       Op.request ⟨ComputationType.A, []⟩,
       Op.getWork ComputationType.A]) :=
  ⟨⟨by decide, rfl⟩,
    (c5_getWork_fifo 2
      [Op.request ⟨ComputationType.A, []⟩,
       Op.request ⟨ComputationType.A, []⟩,
       Op.getWork ComputationType.A] ComputationType.A (by decide) rfl).2⟩

/-- Ledger invariant: slot ids read, from newest (front) to oldest (back),
as the descending run `nextId - 1, …, nextId - length`; and every filled
slot stores a result carrying the slot's own id. -/
def LedgerInv (s : ComputationManager) : Prop :=
  s.results.map (fun slot => slot.id) =
    (List.range' (s.nextId - s.results.length) s.results.length).reverse ∧
  s.results.length ≤ s.nextId ∧
  ∀ slot ∈ s.results, ∀ r : Result, slot.result = some r → r.id = slot.id

/-- Number of results already delivered (ids below the oldest live slot). -/
def dCount (s : ComputationManager) : Nat :=
  s.nextId - s.results.length

/-- Filling a slot never changes the sequence of slot ids. -/
theorem fillSlot_map_id (l : List ResultWithId) (r : Result) :
    (fillSlot l r).map (fun slot => slot.id) =
      l.map (fun slot => slot.id) := by
  induction l with
  | nil => rfl
  | cons slot rest ih =>
      simp only [fillSlot]
      split
      · simp
      · simp [ih]

/-- Filling a slot never changes the number of slots. -/
theorem fillSlot_length (l : List ResultWithId) (r : Result) :
    (fillSlot l r).length = l.length := by
  induction l with
  | nil => rfl
  | cons slot rest ih =>
      simp only [fillSlot]
      split
      · simp
      · simp [ih]

/-- `provideResult` only fills a slot whose id equals the result's id, so
the id coherence of filled slots is preserved. -/
theorem fillSlot_filled (l : List ResultWithId) (r : Result)
    (h : ∀ slot ∈ l, ∀ rr : Result, slot.result = some rr → rr.id = slot.id) :
    ∀ slot ∈ fillSlot l r, ∀ rr : Result,
      slot.result = some rr → rr.id = slot.id := by
  induction l with
  | nil => intro slot h'; simp [fillSlot] at h'
  | cons a rest ih =>
      intro slot hmem rr hrr
      simp only [fillSlot] at hmem
      by_cases ha : a.id = r.id
      · rw [if_pos ha] at hmem
        rcases List.mem_cons.1 hmem with h' | h'
        · have hrr2 : r = rr := by
            rw [h'] at hrr
            exact Option.some.inj hrr
          rw [h', ← hrr2]
          exact ha.symm
        · exact h slot (List.mem_cons_of_mem a h') rr hrr
      · rw [if_neg ha] at hmem
        rcases List.mem_cons.1 hmem with h' | h'
        · exact h slot (h' ▸ List.mem_cons_self a rest) rr hrr
        · exact ih (fun sl hsl => h sl (List.mem_cons_of_mem a hsl)) slot h' rr hrr

/-- How a non-abort step affects the ledger: unchanged, a fresh empty slot
pushed at the front, one slot filled in place, or the back slot (which was
filled) popped and its result's id emitted. -/
theorem stepM_ledger_cases (s : ComputationManager) (op : Op)
    (hab : ∀ id, op ≠ Op.abort id) :
    (resIdOf s op = none ∧ (stepM s op).results = s.results ∧
      (stepM s op).nextId = s.nextId) ∨
    (resIdOf s op = none ∧
      (stepM s op).results = ⟨s.nextId, none⟩ :: s.results ∧
      (stepM s op).nextId = s.nextId + 1) ∨
    (∃ r, resIdOf s op = none ∧
      (stepM s op).results = fillSlot s.results r ∧
      (stepM s op).nextId = s.nextId) ∨
    (∃ slot rr, s.results.getLast? = some slot ∧ slot.result = some rr ∧
      resIdOf s op = some rr.id ∧
      (stepM s op).results = s.results.dropLast ∧
      (stepM s op).nextId = s.nextId) := by
  cases op with
  | request c =>
      cases hmb : s.monitorHeld with
      | true =>
          left
          refine ⟨rfl, ?_, ?_⟩ <;>
            simp [stepM, ComputationManager.requestComputation, hmb]
      | false =>
          by_cases hfull : s.MAX_TOLERATED_QUEUE_SIZE ≤
              (s.buffer c.computationType).length
          · left
            refine ⟨rfl, ?_, ?_⟩ <;>
              cases hstp : s.stopped <;>
                simp [stepM, ComputationManager.requestComputation, hmb,
                  hfull, hstp]
          · right; left
            refine ⟨rfl, ?_, ?_⟩ <;>
              simp [stepM, ComputationManager.requestComputation, hmb, hfull]
  | abort id => exact absurd rfl (hab id)
  | getNext =>
      cases hmb : s.monitorHeld with
      | true =>
          left
          refine ⟨?_, ?_, ?_⟩ <;>
            simp [resIdOf, stepM, ComputationManager.getNextResult, hmb]
      | false =>
          cases hlast : s.results.getLast? with
          | none =>
              left
              refine ⟨?_, ?_, ?_⟩ <;>
                cases hstp : s.stopped <;>
                  simp [resIdOf, stepM, ComputationManager.getNextResult,
                    hmb, hlast, hstp]
          | some slot =>
              cases hfill : slot.result with
              | none =>
                  left
                  refine ⟨?_, ?_, ?_⟩ <;>
                    cases hstp : s.stopped <;>
                      simp [resIdOf, stepM, ComputationManager.getNextResult,
                        hmb, hlast, hfill, hstp]
              | some rr =>
                  right; right; right
                  refine ⟨slot, rr, rfl, hfill, ?_, ?_, ?_⟩ <;>
                    simp [resIdOf, stepM, ComputationManager.getNextResult,
                      hmb, hlast, hfill]
  | getWork u =>
      left
      refine ⟨rfl, ?_, ?_⟩ <;>
        (simp only [stepM, ComputationManager.getWork]
         repeat' split
         all_goals rfl)
  | contWork id =>
      left
      refine ⟨rfl, ?_, ?_⟩ <;>
        (simp only [stepM, ComputationManager.continueWork]
         repeat' split
         all_goals rfl)
  | provide r =>
      cases hmb : s.monitorHeld with
      | true =>
          left
          refine ⟨rfl, ?_, ?_⟩ <;>
            simp [stepM, ComputationManager.provideResult, hmb]
      | false =>
          right; right; left
          refine ⟨r, rfl, ?_, ?_⟩ <;>
            simp [stepM, ComputationManager.provideResult, hmb]
  | stop =>
      left
      refine ⟨rfl, ?_, ?_⟩ <;>
        (simp only [stepM, ComputationManager.stop]
         split
         all_goals rfl)

/-- Along any abort-free trace from a state satisfying the ledger
invariant, the invariant is maintained, the delivered count never
decreases, and the delivered ids are exactly the consecutive block from
the starting delivered count up to the final one. -/
theorem ledger_spec (ops : List Op) : ∀ s : ComputationManager,
    noAbort ops = true → LedgerInv s →
    LedgerInv (run s ops) ∧
    dCount s ≤ dCount (run s ops) ∧
    resIds s ops = List.range' (dCount s) (dCount (run s ops) - dCount s) := by
  induction ops with
  | nil =>
      intro s _ hinv
      exact ⟨hinv, Nat.le_refl _, by simp [resIds, collect, run]⟩
  | cons op ops ih =>
      intro s hna hinv
      simp only [noAbort, List.all_cons, Bool.and_eq_true] at hna
      have hna2 : noAbort ops = true := hna.2
      have hab : ∀ id, op ≠ Op.abort id := by
        intro id he2
        rw [he2] at hna
        simp at hna
      have hrun : run s (op :: ops) = run (stepM s op) ops := rfl
      obtain ⟨hmap, hlen, hfilled⟩ := hinv
      rcases stepM_ledger_cases s op hab with
        ⟨he, hres, hnid⟩ | ⟨he, hres, hnid⟩ | ⟨r, he, hres, hnid⟩ |
          ⟨slot, rr, hlast, hfill, he, hres, hnid⟩
      · -- ledger untouched
        have hinv' : LedgerInv (stepM s op) := by
          unfold LedgerInv
          rw [hres, hnid]
          exact ⟨hmap, hlen, hfilled⟩
        have hdq : dCount (stepM s op) = dCount s := by
          unfold dCount
          rw [hres, hnid]
        obtain ⟨ha, hb, hc⟩ := ih (stepM s op) hna2 hinv'
        have hfold : resIds s (op :: ops) = resIds (stepM s op) ops := by
          simp only [resIds, collect, he]
        refine ⟨by rw [hrun]; exact ha, ?_, ?_⟩
        · rw [hrun, ← hdq]
          exact hb
        · rw [hrun, hfold, hc, hdq]
      · -- fresh empty slot pushed (successful submission)
        have hinv' : LedgerInv (stepM s op) := by
          refine ⟨?_, ?_, ?_⟩
          · rw [hres, hnid]
            simp only [List.map_cons, List.length_cons]
            rw [show s.nextId + 1 - (s.results.length + 1) =
                s.nextId - s.results.length from by omega]
            rw [List.range'_1_concat, List.reverse_concat,
              show s.nextId - s.results.length + s.results.length =
                s.nextId from by omega, hmap]
          · rw [hres, hnid]
            simp only [List.length_cons]
            omega
          · rw [hres]
            intro sl hmem rr2 hrr2
            rcases List.mem_cons.1 hmem with h' | h'
            · rw [h'] at hrr2
              simp at hrr2
            · exact hfilled sl h' rr2 hrr2
        have hdq : dCount (stepM s op) = dCount s := by
          unfold dCount
          rw [hres, hnid]
          simp only [List.length_cons]
          omega
        obtain ⟨ha, hb, hc⟩ := ih (stepM s op) hna2 hinv'
        have hfold : resIds s (op :: ops) = resIds (stepM s op) ops := by
          simp only [resIds, collect, he]
        refine ⟨by rw [hrun]; exact ha, ?_, ?_⟩
        · rw [hrun, ← hdq]
          exact hb
        · rw [hrun, hfold, hc, hdq]
      · -- one slot filled in place (provideResult)
        have hfl : (fillSlot s.results r).length = s.results.length :=
          fillSlot_length _ _
        have hinv' : LedgerInv (stepM s op) := by
          refine ⟨?_, ?_, ?_⟩
          · rw [hres, hnid, fillSlot_map_id, hfl]
            exact hmap
          · rw [hres, hnid, hfl]
            exact hlen
          · rw [hres]
            exact fillSlot_filled s.results r hfilled
        have hdq : dCount (stepM s op) = dCount s := by
          unfold dCount
          rw [hres, hnid, hfl]
        obtain ⟨ha, hb, hc⟩ := ih (stepM s op) hna2 hinv'
        have hfold : resIds s (op :: ops) = resIds (stepM s op) ops := by
          simp only [resIds, collect, he]
        refine ⟨by rw [hrun]; exact ha, ?_, ?_⟩
        · rw [hrun, ← hdq]
          exact hb
        · rw [hrun, hfold, hc, hdq]
      · -- back slot popped and delivered (successful getNextResult)
        have hne : s.results ≠ [] := by
          intro h0
          rw [h0] at hlast
          simp at hlast
        have hlen1 : 1 ≤ s.results.length := List.length_pos.2 hne
        obtain ⟨k, hk⟩ : ∃ k, s.results.length = k + 1 :=
          ⟨s.results.length - 1, by omega⟩
        have hslotid : slot.id = s.nextId - s.results.length := by
          have h1 : (s.results.map (fun sl => sl.id)).getLast? =
              some slot.id := by
            rw [List.getLast?_map, hlast]
            rfl
          rw [hmap, List.getLast?_reverse, hk, List.range'_succ] at h1
          simp only [List.head?_cons, Option.some.injEq] at h1
          rw [hk]
          omega
        have hmem : slot ∈ s.results := by
          have h2 := List.getLast?_eq_getLast s.results hne
          rw [h2] at hlast
          rw [← Option.some.inj hlast]
          exact List.getLast_mem hne
        have hrrid : rr.id = slot.id := hfilled slot hmem rr hfill
        have hinv' : LedgerInv (stepM s op) := by
          refine ⟨?_, ?_, ?_⟩
          · rw [hres, hnid, List.map_dropLast, hmap, List.dropLast_reverse,
              List.length_dropLast, hk, List.range'_succ]
            simp only [Nat.add_sub_cancel, List.tail_cons]
            rw [show s.nextId - (k + 1) + 1 = s.nextId - k from by omega]
          · rw [hres, hnid, List.length_dropLast]
            omega
          · rw [hres]
            intro sl hm rr2 hr2
            exact hfilled sl ((List.dropLast_sublist _).mem hm) rr2 hr2
        have hdq : dCount (stepM s op) = dCount s + 1 := by
          unfold dCount
          rw [hres, hnid, List.length_dropLast]
          omega
        obtain ⟨ha, hb, hc⟩ := ih (stepM s op) hna2 hinv'
        rw [hdq] at hb hc
        have hfold : resIds s (op :: ops) =
            rr.id :: resIds (stepM s op) ops := by
          simp only [resIds, collect, he]
        refine ⟨by rw [hrun]; exact ha, ?_, ?_⟩
        · rw [hrun]
          omega
        · rw [hrun, hfold, hc]
          have hrrd : rr.id = dCount s := by
            rw [hrrid, hslotid]
            rfl
          have hdk : dCount (run (stepM s op) ops) - dCount s =
              (dCount (run (stepM s op) ops) - (dCount s + 1)) + 1 := by
            omega
          rw [hrrd, hdk, List.range'_succ]

/-- C4: for any abort-free trace on a fresh manager, the ids delivered by
the successful `getNextResult` calls are, in order, an initial segment of
the ids handed out by the successful `requestComputation` calls — strictly
increasing, in submission order, however `provideResult` interleaves. -/
theorem c4_result_order (m : Nat) (ops : List Op)
    (h : noAbort ops = true) :
    resIds (ComputationManager.init m) ops =
      (reqIds (ComputationManager.init m) ops).take
        (resIds (ComputationManager.init m) ops).length ∧
    List.Chain' (· < ·) (resIds (ComputationManager.init m) ops) := by
  have hinv0 : LedgerInv (ComputationManager.init m) := by
    refine ⟨rfl, Nat.le_refl _, ?_⟩
    intro slot hm
    simp [ComputationManager.init] at hm
  obtain ⟨_, hd, hres⟩ := ledger_spec ops _ h hinv0
  obtain ⟨hreq, _⟩ := reqIds_run ops (ComputationManager.init m)
  have h0 : dCount (ComputationManager.init m) = 0 := rfl
  have hz : (ComputationManager.init m).nextId = 0 := rfl
  rw [h0] at hres hd
  rw [hz] at hreq
  have hdn : dCount (run (ComputationManager.init m) ops) ≤
      (run (ComputationManager.init m) ops).nextId := Nat.sub_le _ _
  constructor
  · rw [hres, hreq]
    simp only [Nat.sub_zero]
    rw [← List.range_eq_range', ← List.range_eq_range', List.length_range,
      List.take_range]
    congr 1
    omega
  · rw [hres]
    exact (List.pairwise_lt_range' _ _).chain'

/-- Witness for C4: two submissions whose results arrive out of order are
still delivered as ids 0 then 1, the submission order. -/
theorem c4_result_order_witness :
    noAbort [Op.request ⟨ComputationType.A, []⟩,
      Op.request ⟨ComputationType.B, []⟩, Op.provide ⟨1, 5⟩,
      Op.provide ⟨0, 7⟩, Op.getNext, Op.getNext] = true ∧
    (resIds (ComputationManager.init 3)
        [Op.request ⟨ComputationType.A, []⟩,
         Op.request ⟨ComputationType.B, []⟩, Op.provide ⟨1, 5⟩,
         Op.provide ⟨0, 7⟩, Op.getNext, Op.getNext] =
      (reqIds (ComputationManager.init 3)
        [Op.request ⟨ComputationType.A, []⟩,
         Op.request ⟨ComputationType.B, []⟩, Op.provide ⟨1, 5⟩,
         Op.provide ⟨0, 7⟩, Op.getNext, Op.getNext]).take
        (resIds (ComputationManager.init 3)
          [Op.request ⟨ComputationType.A, []⟩,
           Op.request ⟨ComputationType.B, []⟩, Op.provide ⟨1, 5⟩,
           Op.provide ⟨0, 7⟩, Op.getNext, Op.getNext]).length ∧
      List.Chain' (· < ·) (resIds (ComputationManager.init 3)
        [Op.request ⟨ComputationType.A, []⟩,
         Op.request ⟨ComputationType.B, []⟩, Op.provide ⟨1, 5⟩,
         Op.provide ⟨0, 7⟩, Op.getNext, Op.getNext])) :=
  ⟨by decide, c4_result_order 3 _ (by decide)⟩

end Mgr
